import Mathlib

/-!
# Verification of the Timetable Reconciliation Engine of `sbahn-bot.py`

Shallow embedding of the reconciliation engine of `src/sbahn-bot.py`:
station resolver ranking (`_norm`, `_apply_aliases`, `rank_stations`,
`find_station_candidates`), schedule fetching (`_requests_get`,
`_parse_time`, `_line_from_nodes`, `_dest_from_path`, `fetch_plan`,
`fetch_fchg`), the merger (`merge_plan_with_changes`) and the window
assembler (`get_departures_window`).

Modelling conventions:
* Python `dict` (insertion ordered) is modelled by an association list
  (`AList`) with replace-first-else-append assignment, exactly the
  observable behaviour of CPython dict assignment and of `dict.update`.
* Python exceptions are modelled by `Except String`; `try/except` becomes
  a `match` on the `Except` value.  Network calls (`requests.get`,
  `ET.fromstring`) are oracles supplied as function arguments: one oracle
  value per call the code makes.
* `datetime.datetime` values (one fixed timezone throughout the engine)
  are modelled by civil field records; comparison and `timedelta`
  arithmetic go through the microsecond timeline (`DateTime.toMicros`),
  which is how CPython's `datetime` behaves for a fixed tzinfo.
* Machine strings are ASCII-faithful: `str.upper`/`str.lower`/`str.strip`
  are modelled on the code points the feeds actually carry.
-/

set_option autoImplicit false

namespace SBahn

/-! ## Python `dict` model: insertion-ordered association lists -/

/-- An insertion-ordered map, as CPython dicts are. -/
abbrev AList (κ α : Type) := List (κ × α)

variable {κ α : Type} [DecidableEq κ]

/-- `d.get(k)`: value of the first (for genuine dicts: only) binding of `k`. -/
def aget : AList κ α → κ → Option α
  | [], _ => none
  | (k', v) :: t, k => if k' = k then some v else aget t k

/-- `k in d`. -/
def amem (d : AList κ α) (k : κ) : Bool :=
  (aget d k).isSome

/-- `d[k] = v`: replace the value of the existing binding of `k` in place,
else append a new binding at the end — CPython dict assignment. -/
def aset : AList κ α → κ → α → AList κ α
  | [], k, v => [(k, v)]
  | (k', v') :: t, k, v => if k' = k then (k', v) :: t else (k', v') :: aset t k v

/-- `a.update(b)`: assign every binding of `b` into `a`, in `b`'s order. -/
def aupdate (a b : AList κ α) : AList κ α :=
  b.foldl (fun d p => aset d p.1 p.2) a

/-- The keys of a dict, in insertion order. -/
def akeys (d : AList κ α) : List κ :=
  d.map Prod.fst

end SBahn

namespace SBahn

/-! ## Python string helpers (ASCII-faithful) -/

/-- `str.upper` (ASCII letters; feed attribute values are ASCII). -/
def pyUpper (s : String) : String :=
  String.mk (s.data.map Char.toUpper)

/-- `str.lower`, extended with the one non-ASCII letter the alias table
uses (Cyrillic М). -/
def pyLower (s : String) : String :=
  String.mk (s.data.map fun c => if c = 'М' then 'м' else c.toLower)

/-- `str.strip()`. -/
def pyStrip (s : String) : String :=
  String.mk (((s.data.dropWhile Char.isWhitespace).reverse.dropWhile Char.isWhitespace).reverse)

/-- `s.startswith(p)`. -/
def pyStartsWith (s p : String) : Bool :=
  p.data.isPrefixOf s.data

/-- `p in s` (substring containment). -/
def pyContains (s p : String) : Bool :=
  decide (p.data <:+: s.data)

/-- `len(s)` (code points). -/
def pyLen (s : String) : Nat :=
  s.data.length

/-- `s[i:j]` (code-point slicing, `0 ≤ i ≤ j`). -/
def pySlice (s : String) (i j : Nat) : String :=
  String.mk ((s.data.drop i).take (j - i))

/-- `s.split(sep)` for a one-character separator, on char lists. -/
def splitChar (sep : Char) : List Char → List (List Char)
  | [] => [[]]
  | c :: rest =>
    let r := splitChar sep rest
    if c = sep then [] :: r
    else
      match r with
      | [] => [[c]]
      | h :: t => (c :: h) :: t

/-- `int(s)` for Python: optional surrounding whitespace, optional single
sign, then one or more decimal digits (underscores cannot occur in the
two-character slices this program parses). -/
def pyInt (s : String) : Option Int :=
  let t := (pyStrip s).data
  let digitsToNat : List Char → Option Nat := fun ds =>
    if ds ≠ [] ∧ ds.all Char.isDigit then
      some (ds.foldl (fun n c => n * 10 + (c.toNat - 48)) 0)
    else none
  match t with
  | '-' :: rest => (digitsToNat rest).map fun n => -(n : Int)
  | '+' :: rest => (digitsToNat rest).map fun n => (n : Int)
  | _ => (digitsToNat t).map fun n => (n : Int)

end SBahn

namespace SBahn

/-! ## Civil datetimes (fixed timezone `Europe/Berlin` throughout) -/

/-- A Python `datetime.datetime` carrying the engine's fixed tzinfo. -/
structure DateTime where
  year : Nat
  month : Nat
  day : Nat
  hour : Nat
  minute : Nat
  second : Nat := 0
  micro : Nat := 0
  deriving DecidableEq, Repr

def isLeapYear (y : Nat) : Bool :=
  y % 4 = 0 && (y % 100 ≠ 0 || y % 400 = 0)

def daysInMonth (y m : Nat) : Nat :=
  if m = 2 then (if isLeapYear y then 29 else 28)
  else if m = 4 ∨ m = 6 ∨ m = 9 ∨ m = 11 then 30
  else 31

/-- Days since `0000-03-01` of the proleptic Gregorian calendar
(era/year-of-era decomposition). -/
def daysFromCivil (y m d : Nat) : Nat :=
  let y' := if m ≤ 2 then y - 1 else y
  let era := y' / 400
  let yoe := y' % 400
  let mp := if m > 2 then m - 3 else m + 9
  let doy := (153 * mp + 2) / 5 + d - 1
  let doe := yoe * 365 + yoe / 4 - yoe / 100 + doy
  era * 146097 + doe

/-- Inverse of `daysFromCivil`. -/
def civilFromDays (z : Nat) : Nat × Nat × Nat :=
  let era := z / 146097
  let doe := z % 146097
  let yoe := (doe - doe / 1460 + doe / 36524 - doe / 146096) / 365
  let y := yoe + era * 400
  let doy := doe - (365 * yoe + yoe / 4 - yoe / 100)
  let mp := (5 * doy + 2) / 153
  let d := doy - (153 * mp + 2) / 5 + 1
  let m := if mp < 10 then mp + 3 else mp - 9
  (if m ≤ 2 then y + 1 else y, m, d)

/-- Position on the microsecond timeline; this is the order and the
`timedelta` arithmetic of `datetime` values sharing one tzinfo. -/
def DateTime.toMicros (t : DateTime) : Nat :=
  ((daysFromCivil t.year t.month t.day) * 86400
    + t.hour * 3600 + t.minute * 60 + t.second) * 1000000 + t.micro

/-- Timeline position back to civil fields. -/
def DateTime.ofMicros (x : Nat) : DateTime :=
  let micro := x % 1000000
  let ts := x / 1000000
  let sod := ts % 86400
  let days := ts / 86400
  let c := civilFromDays days
  ⟨c.1, c.2.1, c.2.2, sod / 3600, (sod % 3600) / 60, sod % 60, micro⟩

/-- `a <= b` on datetimes (fixed shared tzinfo). -/
def dtLe (a b : DateTime) : Bool :=
  decide (a.toMicros ≤ b.toMicros)

/-- In-range civil fields, as `datetime.datetime.__new__` enforces. -/
def validCivil (t : DateTime) : Prop :=
  1 ≤ t.year ∧ t.year ≤ 9999 ∧ 1 ≤ t.month ∧ t.month ≤ 12
    ∧ 1 ≤ t.day ∧ t.day ≤ daysInMonth t.year t.month
    ∧ t.hour ≤ 23 ∧ t.minute ≤ 59 ∧ t.second ≤ 59 ∧ t.micro ≤ 999999

instance (t : DateTime) : Decidable (validCivil t) := by
  unfold validCivil; infer_instance

/-- `datetime.datetime(y, m, d, hh, mi, tzinfo=tz)`: `some` on in-range
arguments, `none` standing for the `ValueError` the constructor raises. -/
def mkDatetime (y m d hh mi : Int) : Option DateTime :=
  if 1 ≤ y ∧ y ≤ 9999 ∧ 1 ≤ m ∧ m ≤ 12 ∧ 1 ≤ d
      ∧ d ≤ daysInMonth y.toNat m.toNat ∧ 0 ≤ hh ∧ hh ≤ 23 ∧ 0 ≤ mi ∧ mi ≤ 59 then
    some ⟨y.toNat, m.toNat, d.toNat, hh.toNat, mi.toNat, 0, 0⟩
  else none

/-- `%y%m%d` / `%H` formatting helpers. -/
def pad2 (n : Nat) : String :=
  if n < 10 then "0" ++ toString n else toString n

def fmtYYMMDD (t : DateTime) : String :=
  pad2 (t.year % 100) ++ pad2 t.month ++ pad2 t.day

def fmtHH (t : DateTime) : String :=
  pad2 t.hour

end SBahn

namespace SBahn

/-! ## DB plan/fchg models: the `Event` dataclass and the feed parsers -/

/-- The `Event` dataclass of `sbahn-bot.py`. -/
structure Event where
  id : String
  line_label : String
  pt : Option DateTime := none
  ct : Option DateTime := none
  pp : Option String := none
  cp : Option String := none
  dest : Option String := none
  canceled : Bool := false
  raw_tl : AList String String := []
  raw_node_attrs : AList String String := []
  deriving DecidableEq, Repr

/-- `Event.effective_time`: `self.ct or self.pt` (datetimes are always
truthy, so `or` is `orElse` here). -/
def Event.effective_time (e : Event) : Option DateTime :=
  match e.ct with
  | some t => some t
  | none => e.pt

/-- Truthiness of an `Optional[str]`: `None` and `""` are falsy. -/
def pyTruthy (o : Option String) : Bool :=
  (o.getD "") ≠ ""

/-- `_parse_time`: decode a `YYMMDDHHmm` code, `None` on anything
malformed (the `try/except` around `int` and the `datetime` constructor). -/
def parse_time (code : Option String) : Option DateTime :=
  match code with
  | none => none
  | some c =>
    if c = "" ∨ pyLen c < 10 then none
    else
      match pyInt (pySlice c 0 2), pyInt (pySlice c 2 4), pyInt (pySlice c 4 6),
            pyInt (pySlice c 6 8), pyInt (pySlice c 8 10) with
      | some yy, some mm, some dd, some hh, some mi => mkDatetime (2000 + yy) mm dd hh mi
      | _, _, _, _, _ => none

/-- `re.match(r"^\d+[A-Z]?$", up)`. -/
def matchesDigitsOptUpper (s : String) : Bool :=
  match s.data.span Char.isDigit with
  | (ds, rest) =>
    !ds.isEmpty && (match rest with
      | [] => true
      | [c] => decide ('A' ≤ c) && decide (c ≤ 'Z')
      | _ => false)

/-- `_line_from_nodes(tl, dp_or_ar)`: `tl` is the (optional) trip-label
element's attribute dict, `dpAttrs` the departure element's attribute dict. -/
def line_from_nodes (tl : Option (AList String String)) (dpAttrs : AList String String) : String :=
  let lAttr := pyStrip ((aget dpAttrs "l").getD "")
  if lAttr ≠ "" then
    let up := pyUpper lAttr
    if pyStartsWith up "S" then up
    else if matchesDigitsOptUpper up then "S" ++ up
    else "S" ++ up
  else
    match tl with
    | some tla =>
      let c := pyUpper ((aget tla "c").getD "")
      let n := pyStrip ((aget tla "n").getD "")
      if c = "S" then
        let nClean := pyUpper (String.mk (n.data.filter fun ch =>
          ch.isDigit || (decide ('A' ≤ ch) && decide (ch ≤ 'Z'))))
        if nClean ≠ "" then (if pyStartsWith nClean "S" then nClean else "S" ++ nClean)
        else "S"
      else if c ≠ "" ∧ n ≠ "" then c ++ " " ++ n
      else if c ≠ "" then c
      else "S"
    | none => "S"

/-- `_dest_from_path`: last `|`-separated field of the path attribute. -/
def dest_from_path (path : Option String) : Option String :=
  match path with
  | none => none
  | some p =>
    if p = "" then none
    else ((splitChar '|' p.data).map String.mk).getLast?

/-! ## `_requests_get` and the two fetchers

A network call is an oracle value `HttpAttempt`: `.error` is a raised
transport exception, `.ok (status, body)` a completed response.  The
oracle argument `att` gives the result of the `i`-th `requests.get` call. -/

abbrev HttpAttempt := Except String (Nat × String)

def HTTP_RETRIES : Nat := 2

def requestsGetFrom (att : Nat → HttpAttempt) : Nat → Nat → Option String
  | _, 0 => none
  | i, n + 1 =>
    match att i with
    | .ok (status, text) => if status = 200 then some text else requestsGetFrom att (i + 1) n
    | .error _ => requestsGetFrom att (i + 1) n

/-- `_requests_get`: up to `HTTP_RETRIES + 1` attempts, first 200 body
wins, every exception swallowed, `None` after exhausting retries. -/
def requests_get (att : Nat → HttpAttempt) : Option String :=
  requestsGetFrom att 0 (HTTP_RETRIES + 1)

/-- One `<s>` stop element of a timetable document: its own attributes
and the attribute dicts of its first `<tl>` and `<dp>` children. -/
structure SNode where
  attrs : AList String String := []
  tl : Option (AList String String) := none
  dp : Option (AList String String) := none
  deriving DecidableEq, Repr

/-- `ET.fromstring` as an oracle: `.error` is a raised parse exception. -/
abbrev XmlOracle := String → Except String (List SNode)

/-- The parsing loop of `fetch_plan`: keep departure rows of category S. -/
def parsePlanDoc (root : List SNode) : List Event :=
  root.foldl (fun events s =>
    let sid := (aget s.attrs "id").getD ""
    if sid = "" then events
    else
      match s.tl with
      | none => events
      | some tla =>
        if pyUpper ((aget tla "c").getD "") ≠ "S" then events
        else
          match s.dp with
          | none => events
          | some dp =>
            events ++ [{ id := sid,
                         line_label := line_from_nodes (some tla) dp,
                         pt := parse_time (aget dp "pt"),
                         pp := aget dp "pp",
                         dest := dest_from_path (aget dp "ppth"),
                         raw_tl := tla, raw_node_attrs := dp }]) []

abbrev PlanKey := Nat × String × String
abbrev PlanCache := AList PlanKey (Nat × List Event)

/-- The cache-miss path of `fetch_plan` (network fetch + parse + cache fill). -/
def fetchPlanNet (cache : PlanCache) (nowUnix : Nat) (att : Nat → HttpAttempt)
    (parseXml : XmlOracle) (key : PlanKey) : List Event × PlanCache :=
  match requests_get att with
  | none => ([], aset cache key (nowUnix + 60, []))
  | some xmlText =>
    if xmlText = "" then ([], aset cache key (nowUnix + 60, []))
    else
      match parseXml xmlText with
      | .error _ => ([], aset cache key (nowUnix + 60, []))
      | .ok root =>
        let events := parsePlanDoc root
        (events, aset cache key (nowUnix + 90, events))

/-- `fetch_plan(eva, date, hour, tz)` with the `PLAN_CACHE` state passed
explicitly and `time.time()` as `nowUnix`. -/
def fetch_plan (cache : PlanCache) (nowUnix : Nat) (att : Nat → HttpAttempt)
    (parseXml : XmlOracle) (eva : Nat) (date hour : String) : List Event × PlanCache :=
  let key : PlanKey := (eva, date, hour)
  match aget cache key with
  | some (expiry, events) =>
    if nowUnix < expiry then (events, cache)
    else fetchPlanNet cache nowUnix att parseXml key
  | none => fetchPlanNet cache nowUnix att parseXml key

/-- The parsing loop of `fetch_fchg`. -/
def parseFchgDoc (root : List SNode) : AList String Event :=
  root.foldl (fun changes s =>
    let sid := (aget s.attrs "id").getD ""
    if sid = "" then changes
    else
      match s.dp with
      | none => changes
      | some dp =>
        let cs := pyLower ((aget dp "cs").getD "")
        let cpth := aget dp "cpth"
        let ppth := aget dp "ppth"
        aset changes sid
          { id := sid,
            line_label := line_from_nodes s.tl dp,
            pt := parse_time (aget dp "pt"),
            ct := parse_time (aget dp "ct"),
            pp := aget dp "pp",
            cp := aget dp "cp",
            dest := dest_from_path (if pyTruthy cpth then cpth else ppth),
            canceled := (["c", "x", "1", "true", "y"] : List String).contains cs,
            raw_tl := s.tl.getD [],
            raw_node_attrs := dp }) []

/-- `fetch_fchg(eva, tz)` in the exception monad: every failure path is
handled internally, so the result is `.ok` on every input — which is what
makes the `except` branch around its call site unreachable. -/
def fetch_fchg (att : Nat → HttpAttempt) (parseXml : XmlOracle) :
    Except String (AList String Event) :=
  match requests_get att with
  | none => .ok []
  | some xmlText =>
    if xmlText = "" then .ok []
    else
      match parseXml xmlText with
      | .error _ => .ok []
      | .ok root => .ok (parseFchgDoc root)

end SBahn

namespace SBahn

/-! ## `merge_plan_with_changes` -/

/-- The in-place field overlay of one matched change record onto its
baseline event (`merge_plan_with_changes` lines 824–832). -/
def ovl (base ch : Event) : Event :=
  { base with
    line_label := if ch.line_label ≠ "" then ch.line_label else base.line_label
    ct := if ch.ct.isSome then ch.ct else base.ct
    cp := if pyTruthy ch.cp then ch.cp else base.cp
    pt := if ch.pt.isSome ∧ base.pt = none then ch.pt else base.pt
    pp := if pyTruthy ch.pp ∧ ¬ pyTruthy base.pp then ch.pp else base.pp
    dest := if pyTruthy ch.dest then ch.dest else base.dest
    canceled := base.canceled || ch.canceled
    raw_tl := aupdate base.raw_tl ch.raw_tl
    raw_node_attrs := aupdate base.raw_node_attrs ch.raw_node_attrs }

/-- Index a list of values by a key function, CPython-dict style (shared
by `{e.id: e for e in plan}` and the address index of the heap model). -/
def foldIndex {β : Type} (f : β → String) (init : AList String β) (l : List β) :
    AList String β :=
  l.foldl (fun d x => aset d (f x) x) init

/-- `{e.id: e for e in events}`, starting from `init`. -/
def indexById (init : AList String Event) (events : List Event) : AList String Event :=
  foldIndex Event.id init events

/-- One iteration of the `for sid, ch in changes.items()` loop. -/
def mergeStep (d : AList String Event) (p : String × Event) : AList String Event :=
  match aget d p.1 with
  | some base => aset d p.1 (ovl base p.2)
  | none => aset d p.1 p.2

/-- The `by_id` dict after the whole merge loop. -/
def mergeIndex (plan : List Event) (changes : AList String Event) : AList String Event :=
  changes.foldl mergeStep (indexById [] plan)

/-- `merge_plan_with_changes(plan, changes)`. -/
def merge_plan_with_changes (plan : List Event) (changes : AList String Event) : List Event :=
  (mergeIndex plan changes).map Prod.snd

/-! ## `get_departures_window` -/

def LOOKBACK_MICROS : Nat := 5 * 60 * 1000000
def LOOKAHEAD_MICROS : Nat := 60 * 60 * 1000000

/-- The `in_window` predicate of `get_departures_window`:
`t = ev.effective_time() or ev.pt`, kept iff `prev <= t <= horizon`. -/
def inWindow (prevM horizonM : Nat) (e : Event) : Bool :=
  match (match e.effective_time with | some t => some t | none => e.pt) with
  | none => false
  | some t => decide (prevM ≤ t.toMicros) && decide (t.toMicros ≤ horizonM)

/-- The sort key `e.effective_time() or e.pt` on the timeline (the `None`
case never occurs after windowing). -/
def effKey (e : Event) : Nat :=
  match (match e.effective_time with | some t => some t | none => e.pt) with
  | some t => t.toMicros
  | none => 0

/-- Stable insertion of the earliest-processed element before its equals:
`list.sort` in CPython is stable. -/
def insertByKey (key : Event → Nat) (x : Event) : List Event → List Event
  | [] => [x]
  | y :: ys => if key x ≤ key y then x :: y :: ys else y :: insertByKey key x ys

def sortByKey (key : Event → Nat) : List Event → List Event
  | [] => []
  | x :: xs => insertByKey key x (sortByKey key xs)

/-- Everything `get_departures_window` does around a given changes dict:
plan-hour selection, cache-aware baseline fetches, union by id, merge,
line filter, windowing, sort and truncation.  `planAtt d h` is the
`requests.get` oracle for the `/plan/{eva}/{d}/{h}` call. -/
def windowCore (eva : Nat) (nowLocal : DateTime) (maxItems : Nat) (selectedLine : Option String)
    (cache : PlanCache) (nowUnix : Nat) (planAtt : String → String → Nat → HttpAttempt)
    (parseXml : XmlOracle) (changes : AList String Event) (liveOk : Bool) :
    (List Event × Bool) × PlanCache :=
  let nowM := nowLocal.toMicros
  let prevM := nowM - LOOKBACK_MICROS
  let horizonM := nowM + LOOKAHEAD_MICROS
  let d1 := fmtYYMMDD nowLocal
  let h1 := fmtHH nowLocal
  let dt2 := DateTime.ofMicros (nowM + 3600 * 1000000)
  let d2 := fmtYYMMDD dt2
  let h2 := fmtHH dt2
  let prevDt := DateTime.ofMicros prevM
  let step0 : AList String Event × PlanCache :=
    if prevDt.hour ≠ nowLocal.hour then
      let dt0 := DateTime.ofMicros (nowM - 3600 * 1000000)
      let p0 := fetch_plan cache nowUnix (planAtt (fmtYYMMDD dt0) (fmtHH dt0)) parseXml
        eva (fmtYYMMDD dt0) (fmtHH dt0)
      (indexById [] p0.1, p0.2)
    else ([], cache)
  let p1 := fetch_plan step0.2 nowUnix (planAtt d1 h1) parseXml eva d1 h1
  let p2 := fetch_plan p1.2 nowUnix (planAtt d2 h2) parseXml eva d2 h2
  let planAll := indexById step0.1 (p1.1 ++ p2.1)
  let planList := planAll.map Prod.snd
  let merged := merge_plan_with_changes planList changes
  let merged2 :=
    match selectedLine with
    | some sl =>
      if sl = "" then merged
      else
        let sel := pyStrip (pyUpper sl)
        merged.filter fun e => pyStartsWith (pyUpper e.line_label) sel
    | none => merged
  let filtered := merged2.filter (inWindow prevM horizonM)
  (((sortByKey effKey filtered).take maxItems, liveOk), p2.2)

/-- `get_departures_window(eva, now_local, max_items, selected_line)`:
`live_ok` is set to `False` only if the `fetch_fchg` call raises. -/
def get_departures_window (eva : Nat) (nowLocal : DateTime) (maxItems : Nat)
    (selectedLine : Option String) (cache : PlanCache) (nowUnix : Nat)
    (planAtt : String → String → Nat → HttpAttempt) (parseXml : XmlOracle)
    (fchgAtt : Nat → HttpAttempt) : (List Event × Bool) × PlanCache :=
  match fetch_fchg fchgAtt parseXml with
  | .ok changes =>
    windowCore eva nowLocal maxItems selectedLine cache nowUnix planAtt parseXml changes true
  | .error _ =>
    windowCore eva nowLocal maxItems selectedLine cache nowUnix planAtt parseXml [] false

end SBahn

namespace SBahn

/-! ## Station resolver -/

/-- NFKD decomposition followed by dropping combining marks, for the code
points occurring in the alias table and the station catalog. -/
def nfkdStripCombining (c : Char) : Char :=
  match c with
  | 'ä' => 'a' | 'ö' => 'o' | 'ü' => 'u'
  | 'Ä' => 'A' | 'Ö' => 'O' | 'Ü' => 'U'
  | 'é' => 'e' | 'è' => 'e' | 'ê' => 'e'
  | 'á' => 'a' | 'à' => 'a'
  | _ => c

/-- `_norm`: diacritic folding, lowercasing, whitespace collapsing. -/
def norm (s : String) : String :=
  let folded := (s.data.map nfkdStripCombining).map fun c => if c = 'М' then 'м' else c.toLower
  let words := (folded.splitOnP Char.isWhitespace).filter (· ≠ [])
  String.intercalate " " (words.map String.mk)

/-- The alias dict of `_apply_aliases`, verbatim (including its two
entries with non-normalized keys and its two Cyrillic-М values). -/
def ALIASES : AList String String :=
  [("munich hbf", "München Hbf"),
   ("munich hauptbahnhof", "München Hbf"),
   ("muenchen hbf", "München Hbf"),
   ("muenchen hauptbahnhof", "München Hbf"),
   ("münchen hauptbahnhof", "München Hbf"),
   ("hbf tief", "München Hbf"),
   ("hauptbahnhof", "München Hbf"),
   ("marienplatz", "München Marienplatz"),
   ("marienplatz (tief)", "München Marienplatz"),
   ("karlsplatz", "München Karlsplatz (Stachus)"),
   ("stachus", "München Karlsplatz (Stachus)"),
   ("isartor", "München Isartor"),
   ("rosenheimer platz", "Мünchen Rosenheimer Platz"),
   ("hackerbrücke", "München Hackerbrücke"),
   ("hackerbruecke", "München Hackerbrücke"),
   ("donnersbergerbrücke", "Мünchen Donnersbergerbrücke"),
   ("laim", "München Laim"),
   ("pasing", "München-Pasing"),
   ("muenchen pasing", "München-Pasing"),
   ("münchen pasing", "München-Pasing"),
   ("ostbahnhof", "München Ost"),
   ("munich east", "München Ost"),
   ("munchen ost", "München Ost"),
   ("muenchen ostbahnhof", "München Ost"),
   ("münchen ostbahnhof", "München Ost"),
   ("leuchtenbergring", "München Leuchtenbergring"),
   ("berg am laim", "München-Berg am Laim"),
   ("trudering", "München-Trudering"),
   ("riem", "München-Riem"),
   ("munich airport", "Flughafen München"),
   ("airport", "Flughafen München"),
   ("muc", "Flughafen München"),
   ("flughafen münchen", "Flughafen München"),
   ("flughafen", "Flughafen München"),
   ("flughafen muenchen", "Flughafen München"),
   ("visitor park", "Flughafen München Besucherpark"),
   ("besucherpark", "Flughafen München Besucherpark"),
   ("Flughafen besucherpark", "Flughafen München Besucherpark"),
   ("München Flughafen Besucherpark", "Flughafen München Besucherpark"),
   ("erding", "Erding"),
   ("altenerding", "Altenerding"),
   ("aufhausen (oberbay)", "Aufhausen (Oberbay)"),
   ("markt schwaben", "Markt Schwaben"),
   ("grub (oberbay)", "Grub (Oberbay)"),
   ("heimstetten", "Heimstetten"),
   ("daglfing", "München-Daglfing"),
   ("englschalking", "München-Englschalking")]

/-- `_apply_aliases(q)`: `aliases.get(_norm(q), q)`. -/
def apply_aliases (q : String) : String :=
  (aget ALIASES (norm q)).getD q

/-- One catalog record, with the fields the resolver reads.
`evaNumbers` lists the `"number"` attribute of each entry (which the
catalog may omit, hence `Option`); `sid` is the record's `"id"`. -/
structure Station where
  name : String := ""
  evaNumbers : List (Option Nat) := []
  stationNumber : Option Nat := none
  sid : Option Nat := none
  federalStateCode : Option String := none
  deriving DecidableEq, Repr

/-- A dedup key as computed by `eva or stationNumber or id or name`
(`0`, `None` and `""` are falsy). -/
abbrev PyKey := Sum Nat String

def natTruthy : Option Nat → Option Nat
  | some 0 => none
  | some (n + 1) => some (n + 1)
  | none => none

def keyOf (s : Station) : Option PyKey :=
  let eva : Option Nat := match s.evaNumbers with | [] => none | e :: _ => e
  match natTruthy eva with
  | some n => some (Sum.inl n)
  | none =>
    match natTruthy s.stationNumber with
    | some n => some (Sum.inl n)
    | none =>
      match natTruthy s.sid with
      | some n => some (Sum.inl n)
      | none => if s.name ≠ "" then some (Sum.inr s.name) else none

/-- The result-collection loop of `find_station_candidates`: query both
the aliased and the raw text (`_station_search` is the catalog oracle),
dedup by `keyOf` preserving first-seen order. -/
def collectResults (search : String → List Station) (queries : List String) : List Station :=
  (queries.foldl (fun (acc : List PyKey × List Station) q =>
    if q = "" then acc
    else (search q).foldl (fun (acc2 : List PyKey × List Station) s =>
      match keyOf s with
      | none => acc2
      | some k => if acc2.1.contains k then acc2 else (acc2.1 ++ [k], acc2.2 ++ [s])) acc)
    ([], [])).2

/-- `dict.fromkeys([primary, user_input])`: ordered dedup. -/
def queriesFor (primary userInput : String) : List String :=
  if primary = userInput then [primary] else [primary, userInput]

/-- The score of one catalog record against the normalized query. -/
def scoreStation (qn : String) (s : Station) : Nat :=
  let nn := norm s.name
  (if nn = qn then 100 else 0)
    + (if pyStartsWith nn qn ∨ pyStartsWith qn nn then 50 else 0)
    + (if pyContains nn qn then 25 else 0)
    + (if s.federalStateCode = some "DE-BY" then 5 else 0)

/-- Stable descending insertion: CPython's `sort(reverse=True)` keeps
equal-scored records in input order. -/
def insertDesc (x : Station × Nat) : List (Station × Nat) → List (Station × Nat)
  | [] => [x]
  | y :: ys => if y.2 ≤ x.2 then x :: y :: ys else y :: insertDesc x ys

def sortScoreDesc : List (Station × Nat) → List (Station × Nat)
  | [] => []
  | x :: xs => insertDesc x (sortScoreDesc xs)

/-- `rank_stations(results, query_norm)`. -/
def rank_stations (results : List Station) (qn : String) : List (Station × Nat) :=
  sortScoreDesc (results.foldl (fun acc s =>
    if s.evaNumbers = [] then acc
    else acc ++ [(s, scoreStation qn s)]) [])

/-- `find_station_candidates(user_input, limit)` over the catalog oracle. -/
def find_station_candidates (search : String → List Station) (userInput : String)
    (limit : Nat) : Option Station × List Station :=
  let primary := apply_aliases userInput
  let qn := norm primary
  let ranked := rank_stations (collectResults search (queriesFor primary userInput)) qn
  match ranked with
  | [] => (none, [])
  | top :: _ =>
    if top.2 ≥ 100 ∧ norm top.1.name = qn then (some top.1, [])
    else (none, (ranked.take limit).map Prod.fst)

/-! ## Heap model of the merge

`merge_plan_with_changes` mutates the baseline `Event` objects.  To state
that, the objects live in an explicit store (`List Event`, addresses are
indices); the baseline argument is a list of addresses and the function
returns the updated store together with the addresses of the merged
result.  `ovl` is the same field overlay as above, applied at the
baseline object's address. -/

def defaultEvent : Event := { id := "", line_label := "" }

def mergeHeapStep (store : List Event) (d : AList String Nat) (p : String × Event) :
    List Event × AList String Nat :=
  match aget d p.1 with
  | some a => (store.set a (ovl (store.getD a defaultEvent) p.2), d)
  | none => (store ++ [p.2], aset d p.1 store.length)

def mergeHeap (store : List Event) (planAddrs : List Nat)
    (changes : AList String Event) : List Event × List Nat :=
  let byId := foldIndex (fun a => (store.getD a defaultEvent).id) ([] : AList String Nat) planAddrs
  let fin := changes.foldl (fun (acc : List Event × AList String Nat) p =>
    mergeHeapStep acc.1 acc.2 p) (store, byId)
  (fin.1, fin.2.map Prod.snd)

end SBahn

namespace SBahn

/-! ## Spec-side definitions (formulated from the specification's words,
for comparison against the code-derived definitions above) -/

/-- The spec's mode-letter prefixing rule, as amended: uppercase label,
`"S"` prefixed exactly when the label does not already start with `"S"`. -/
def specPrefixS (u : String) : String :=
  if pyStartsWith u "S" then u else "S" ++ u

/-- An HTTP attempt that did not produce a 200 response: either the call
raised, or it completed with a non-200 status. -/
def failedAttempt : HttpAttempt → Bool
  | .ok (status, _) => status ≠ 200
  | .error _ => true

/-! ## Concrete fixtures used by the witnesses -/

def wNow : DateTime := ⟨2025, 1, 15, 12, 30, 0, 0⟩

def wPlanDoc : List SNode :=
  [{ attrs := [("id", "42")], tl := some [("c", "s")],
     dp := some [("pt", "2501151236"), ("pp", "4"), ("ppth", "A|Erding"), ("l", "2")] }]

def wPlanAtt : String → String → Nat → HttpAttempt :=
  fun d h _ => Except.ok (200, "PLAN" ++ d ++ h)

def wParseXml : XmlOracle := fun s =>
  if s = "PLAN25011512" then .ok wPlanDoc
  else if s = "PLAN25011513" then .ok []
  else .error "parse"

def wFchgFail : Nat → HttpAttempt := fun _ => Except.error "ConnectionError"

def wEv42 : Event :=
  { id := "42", line_label := "S2", pt := some ⟨2025, 1, 15, 12, 36, 0, 0⟩,
    pp := some "4", dest := some "Erding", raw_tl := [("c", "s")],
    raw_node_attrs := [("pt", "2501151236"), ("pp", "4"), ("ppth", "A|Erding"), ("l", "2")] }

def wCh42 : Event :=
  { id := "42", line_label := "S2", ct := some ⟨2025, 1, 15, 12, 41, 0, 0⟩,
    cp := some "4", raw_node_attrs := [("ct", "2501151241"), ("cp", "4")] }

def wCh99 : Event :=
  { id := "99", line_label := "S8", canceled := true }

def wChanges : AList String Event := [("42", wCh42), ("99", wCh99)]

def wSearch : String → List Station := fun q =>
  if q = "München Hbf" then
    [{ name := "München Hbf", evaNumbers := [some 8000261], federalStateCode := some "DE-BY" }]
  else if q = "Berg" then
    [{ name := "Bergfeld", evaNumbers := [some 77], federalStateCode := some "DE-BY" },
     { name := "Obergiesing Berg", evaNumbers := [some 78], federalStateCode := some "DE-BY" }]
  else []

end SBahn

namespace SBahn

/-! ## Association-list lemmas -/

variable {κ α : Type} [DecidableEq κ]

theorem splitChar_ne_nil (sep : Char) (cs : List Char) : splitChar sep cs ≠ [] := by
  induction cs with
  | nil => simp [splitChar]
  | cons c rest ih =>
    simp only [splitChar]
    by_cases h : c = sep
    · simp [h]
    · simp only [if_neg h]
      cases hr : splitChar sep rest <;> simp


@[simp] theorem aget_nil (k : κ) : aget ([] : AList κ α) k = none := rfl

@[simp] theorem aget_cons (k' : κ) (v : α) (t : AList κ α) (k : κ) :
    aget ((k', v) :: t) k = if k' = k then some v else aget t k := rfl

@[simp] theorem aset_nil (k : κ) (v : α) : aset ([] : AList κ α) k v = [(k, v)] := rfl

@[simp] theorem aset_cons (k' : κ) (v' : α) (t : AList κ α) (k : κ) (v : α) :
    aset ((k', v') :: t) k v
      = if k' = k then (k', v) :: t else (k', v') :: aset t k v := rfl

theorem aget_aset_self (d : AList κ α) (k : κ) (v : α) :
    aget (aset d k v) k = some v := by
  induction d with
  | nil => simp
  | cons p t ih =>
    obtain ⟨k', v'⟩ := p
    by_cases h : k' = k <;> simp [h, ih]

theorem aget_aset_ne (d : AList κ α) (k k' : κ) (v : α) (h : k ≠ k') :
    aget (aset d k v) k' = aget d k' := by
  induction d with
  | nil => simp [h]
  | cons p t ih =>
    obtain ⟨k₀, v₀⟩ := p
    by_cases h₀ : k₀ = k
    · subst h₀; simp [h]
    · simp only [aset_cons, if_neg h₀, aget_cons]
      by_cases h₁ : k₀ = k' <;> simp [h₁, ih]

theorem aset_aget_eq (d : AList κ α) (k : κ) (v : α) (h : aget d k = some v) :
    aset d k v = d := by
  induction d with
  | nil => simp at h
  | cons p t ih =>
    obtain ⟨k₀, v₀⟩ := p
    by_cases h₀ : k₀ = k
    · subst h₀
      simp only [aget_cons, if_true] at h
      simp at h
      simp [h]
    · simp only [aget_cons, if_neg h₀] at h
      simp [h₀, ih h]

theorem aset_append_of_not_mem (d : AList κ α) (k : κ) (v : α)
    (h : aget d k = none) : aset d k v = d ++ [(k, v)] := by
  induction d with
  | nil => simp
  | cons p t ih =>
    obtain ⟨k₀, v₀⟩ := p
    by_cases h₀ : k₀ = k
    · simp [h₀] at h
    · simp only [aget_cons, if_neg h₀] at h
      simp [h₀, ih h]

theorem aget_none_iff_not_mem_akeys (d : AList κ α) (k : κ) :
    aget d k = none ↔ k ∉ akeys d := by
  induction d with
  | nil => simp [akeys]
  | cons p t ih =>
    obtain ⟨k₀, v₀⟩ := p
    by_cases h₀ : k₀ = k
    · subst h₀; simp [akeys]
    · simp only [aget_cons, if_neg h₀, akeys, List.map_cons, List.mem_cons]
      rw [ih]
      unfold akeys
      constructor
      · rintro hk (h | h)
        · exact h₀ h.symm
        · exact hk h
      · intro hk h
        exact hk (Or.inr h)

theorem aget_isSome_of_mem {d : AList κ α} {p : κ × α} (h : p ∈ d) :
    (aget d p.1).isSome := by
  induction d with
  | nil => simp at h
  | cons q t ih =>
    obtain ⟨k₀, v₀⟩ := q
    rcases List.mem_cons.1 h with h | h
    · subst h; simp
    · by_cases h₀ : k₀ = p.1 <;> simp [h₀, ih h]

theorem mem_of_aget_eq_some {d : AList κ α} {k : κ} {v : α}
    (h : aget d k = some v) : (k, v) ∈ d := by
  induction d with
  | nil => simp at h
  | cons q t ih =>
    obtain ⟨k₀, v₀⟩ := q
    by_cases h₀ : k₀ = k
    · subst h₀
      simp at h
      simp [h]
    · simp only [aget_cons, if_neg h₀] at h
      exact List.mem_cons_of_mem _ (ih h)

theorem akeys_aset (d : AList κ α) (k : κ) (v : α) :
    akeys (aset d k v) = if k ∈ akeys d then akeys d else akeys d ++ [k] := by
  induction d with
  | nil => simp [akeys]
  | cons p t ih =>
    obtain ⟨k₀, v₀⟩ := p
    by_cases h₀ : k₀ = k
    · subst h₀; simp [akeys]
    · have hne : ¬ k = k₀ := fun h => h₀ h.symm
      simp only [aset_cons, if_neg h₀, akeys, List.map_cons] at *
      by_cases hk : k ∈ List.map Prod.fst t <;> simp [hk, hne, ih]

theorem akeys_nodup_aset {d : AList κ α} (h : (akeys d).Nodup) (k : κ) (v : α) :
    (akeys (aset d k v)).Nodup := by
  rw [akeys_aset]
  by_cases hk : k ∈ akeys d <;> simp [hk, List.nodup_append, h]

theorem aget_aupdate_not_mem (a : AList κ α) (b : AList κ α) (k : κ)
    (h : k ∉ akeys b) : aget (aupdate a b) k = aget a k := by
  induction b generalizing a with
  | nil => rfl
  | cons p t ih =>
    obtain ⟨k₀, v₀⟩ := p
    simp only [akeys, List.map_cons, List.mem_cons] at h
    push_neg at h
    have : aupdate a ((k₀, v₀) :: t) = aupdate (aset a k₀ v₀) t := rfl
    rw [this, ih _ h.2, aget_aset_ne _ _ _ _ (fun hk => h.1 hk.symm)]

/-- `dict.update` is idempotent: updating twice with the same dict is the
same as updating once (the keys of a genuine dict are pairwise distinct). -/
theorem aupdate_idem (a b : AList κ α) (h : (akeys b).Nodup) :
    aupdate (aupdate a b) b = aupdate a b := by
  induction b generalizing a with
  | nil => rfl
  | cons p t ih =>
    obtain ⟨k₀, v₀⟩ := p
    simp only [akeys, List.map_cons, List.nodup_cons] at h
    have step : ∀ x : AList κ α, aupdate x ((k₀, v₀) :: t) = aupdate (aset x k₀ v₀) t := fun _ => rfl
    rw [step, step]
    have hget : aget (aupdate (aset a k₀ v₀) t) k₀ = some v₀ := by
      rw [aget_aupdate_not_mem _ _ _ h.1, aget_aset_self]
    rw [aset_aget_eq _ _ _ hget]
    exact ih (aset a k₀ v₀) h.2


end SBahn

namespace SBahn

/-! ## Line-label normalization (C3) -/

/-- **C3, counterexample**: the claim says an explicit attribute that is
neither bare digits nor starting with `S` (such as `U3`) is left
unprefixed; the code returns `SU3`, not `U3`. -/
theorem line_label_counterexample :
    line_from_nodes none [("l", "U3")] = "SU3" ∧ ("SU3" : String) ≠ "U3" := by
  constructor
  · decide
  · decide

/-- **C3, amended**: a non-empty (stripped) explicit per-stop attribute is
uppercased and the mode letter `S` is prefixed exactly when the uppercased
attribute does not already start with `S`; when the attribute is empty and
the trip category is `S`, the category-cleaned trip number is normalized
under the same prefixing rule. -/
theorem line_label_amended (tl : Option (AList String String)) (dpAttrs : AList String String) :
    (pyStrip ((aget dpAttrs "l").getD "") ≠ "" →
      line_from_nodes tl dpAttrs
        = specPrefixS (pyUpper (pyStrip ((aget dpAttrs "l").getD ""))))
    ∧ (∀ tla, tl = some tla → pyStrip ((aget dpAttrs "l").getD "") = "" →
        pyUpper ((aget tla "c").getD "") = "S" →
        pyUpper (String.mk ((pyStrip ((aget tla "n").getD "")).data.filter fun ch =>
            ch.isDigit || (decide ('A' ≤ ch) && decide (ch ≤ 'Z')))) ≠ "" →
        line_from_nodes tl dpAttrs
          = specPrefixS (pyUpper (String.mk ((pyStrip ((aget tla "n").getD "")).data.filter fun ch =>
              ch.isDigit || (decide ('A' ≤ ch) && decide (ch ≤ 'Z')))))) := by
  constructor
  · intro h
    unfold line_from_nodes specPrefixS
    simp only [if_pos h]
    by_cases hs : pyStartsWith (pyUpper (pyStrip ((aget dpAttrs "l").getD ""))) "S" = true
    · simp [hs]
    · simp only [Bool.not_eq_true] at hs
      simp [hs]
  · intro tla htl h hc hn
    subst htl
    simp only [line_from_nodes, h, hc]
    rw [if_neg (by simp)]
    rw [if_pos trivial, if_pos hn]
    unfold specPrefixS
    rfl

/-- **C3, witness** for the amended theorem at the concrete attribute `u3`. -/
theorem line_label_amended_witness :
    pyStrip ((aget [("l", "u3")] "l").getD "") ≠ ""
      ∧ line_from_nodes none [("l", "u3")]
          = specPrefixS (pyUpper (pyStrip ((aget [("l", "u3")] "l").getD ""))) :=
  ⟨by decide, (line_label_amended none [("l", "u3")]).1 (by decide)⟩

end SBahn

namespace SBahn

/-! ## Destination parsing (C4) -/

theorem splitChar_of_not_mem (sep : Char) (cs : List Char) (h : sep ∉ cs) :
    splitChar sep cs = [cs] := by
  induction cs with
  | nil => rfl
  | cons c rest ih =>
    simp only [List.mem_cons] at h
    push_neg at h
    simp only [splitChar]
    rw [if_neg (fun hc => h.1 hc.symm), ih h.2]

theorem splitChar_sep_length (sep : Char) (q r : List Char) :
    2 ≤ (splitChar sep (q ++ sep :: r)).length := by
  induction q with
  | nil =>
    simp only [List.nil_append, splitChar, if_pos rfl]
    cases hsr : splitChar sep r with
    | nil => exact absurd hsr (splitChar_ne_nil _ _)
    | cons a t => simp
  | cons c q' ih =>
    simp only [List.cons_append, splitChar]
    by_cases hc : c = sep
    · rw [if_pos hc]
      cases hs : splitChar sep (q' ++ sep :: r) with
      | nil => exact absurd hs (splitChar_ne_nil _ _)
      | cons a t => simp
    · rw [if_neg hc]
      cases hs : splitChar sep (q' ++ sep :: r) with
      | nil => exact absurd hs (splitChar_ne_nil _ _)
      | cons a t =>
        rw [hs] at ih
        simp only [List.length_cons] at ih ⊢
        omega

theorem splitChar_getLast_sep (sep : Char) (q r : List Char) (hr : sep ∉ r) :
    (splitChar sep (q ++ sep :: r)).getLast? = some r := by
  induction q with
  | nil =>
    simp only [List.nil_append, splitChar, if_pos rfl]
    rw [splitChar_of_not_mem sep r hr]
    rfl
  | cons c q' ih =>
    simp only [List.cons_append, splitChar]
    by_cases hc : c = sep
    · rw [if_pos hc]
      cases hs : splitChar sep (q' ++ sep :: r) with
      | nil => exact absurd hs (splitChar_ne_nil _ _)
      | cons a t =>
        rw [hs] at ih
        rw [List.getLast?_cons_cons]
        exact ih
    · rw [if_neg hc]
      cases hs : splitChar sep (q' ++ sep :: r) with
      | nil => exact absurd hs (splitChar_ne_nil _ _)
      | cons a t =>
        cases t with
        | nil =>
          have h2 := splitChar_sep_length sep q' r
          rw [hs] at h2
          simp at h2
        | cons b t' =>
          rw [hs, List.getLast?_cons_cons] at ih
          rw [List.getLast?_cons_cons]
          exact ih

/-- **C4, counterexample**: the claim says a path whose final segment is
empty yields the last *non-empty* segment (`"B"` for `"A|B|"`); the code
returns the empty final segment. -/
theorem dest_path_counterexample :
    dest_from_path (some "A|B|") = some "" ∧ (some "" : Option String) ≠ some "B" := by
  constructor
  · decide
  · decide

/-- **C4, amended**: for a present non-empty path the destination is the
suffix after the final `|` (which may be the empty string); a path with no
`|` yields the whole string; an absent or empty path yields no destination. -/
theorem dest_path_amended :
    (∀ q r : String, '|' ∉ r.data → dest_from_path (some (q ++ "|" ++ r)) = some r)
    ∧ (∀ p : String, p ≠ "" → '|' ∉ p.data → dest_from_path (some p) = some p)
    ∧ dest_from_path none = none ∧ dest_from_path (some "") = none := by
  refine ⟨?_, ?_, rfl, rfl⟩
  · intro q r hr
    have hdata : (q ++ "|" ++ r).data = q.data ++ '|' :: r.data := by
      simp [String.data_append]
    have hne : ¬ (q ++ "|" ++ r) = "" := by
      intro hcontr
      have hd : (q ++ "|" ++ r).data = [] := by rw [hcontr]
      rw [hdata] at hd
      simp at hd
    simp only [dest_from_path]
    rw [if_neg hne, hdata]
    rw [List.getLast?_map, splitChar_getLast_sep _ _ _ hr]
    rfl
  · intro p hp hsep
    simp only [dest_from_path]
    rw [if_neg hp, splitChar_of_not_mem _ _ hsep]
    rfl

/-- **C4, witness** for the amended theorem on a concrete path. -/
theorem dest_path_amended_witness :
    '|' ∉ ("Erding" : String).data
      ∧ dest_from_path (some ("München Ost" ++ "|" ++ "Erding")) = some "Erding" :=
  ⟨by decide, dest_path_amended.1 "München Ost" "Erding" (by decide)⟩

end SBahn

namespace SBahn

/-! ## Windowing predicate (C5) -/

theorem effective_or_pt (e : Event) :
    (match e.effective_time with | some t => some t | none => e.pt) = e.effective_time := by
  unfold Event.effective_time
  cases e.ct <;> cases hpt : e.pt <;> simp

/-- **C5**: `get_departures_window` keeps a merged event iff its effective
time (live if present, else planned) lies in the closed window
`[now − lookback, now + lookahead]` on the microsecond timeline; both
endpoints are included and events with no effective time are dropped. -/
theorem window_predicate_iff (now : DateTime) (e : Event) :
    inWindow (now.toMicros - LOOKBACK_MICROS) (now.toMicros + LOOKAHEAD_MICROS) e = true
      ↔ ∃ t : DateTime, e.effective_time = some t
          ∧ now.toMicros - LOOKBACK_MICROS ≤ t.toMicros
          ∧ t.toMicros ≤ now.toMicros + LOOKAHEAD_MICROS := by
  unfold inWindow
  rw [effective_or_pt]
  cases he : e.effective_time with
  | none => simp
  | some t => simp

/-! ## Time decoding totality (C7) -/

theorem pyLen_pySlice_le (s : String) (j : Nat) : pyLen (pySlice s 0 j) ≤ j := by
  unfold pyLen pySlice
  simp [List.length_take]

/-- **C7**: `_parse_time` is total: an absent code or a code shorter than
10 characters decodes to `none`; only the first 10 characters matter; and
every decoded result is an in-range civil datetime (anything malformed in
those 10 characters yields `none`, never an error). -/
theorem parse_time_total :
    parse_time none = none
    ∧ (∀ s : String, pyLen s < 10 → parse_time (some s) = none)
    ∧ (∀ s : String, parse_time (some s) = parse_time (some (pySlice s 0 10)))
    ∧ (∀ (s : String) (dt : DateTime), parse_time (some s) = some dt → validCivil dt) := by
  refine ⟨rfl, ?_, ?_, ?_⟩
  · intro s h
    simp only [parse_time]
    rw [if_pos (Or.inr h)]
  · intro s
    by_cases hlen : pyLen s < 10
    · have hsl : pySlice s 0 10 = s := by
        unfold pySlice
        unfold pyLen at hlen
        rw [List.drop_zero, List.take_of_length_le (by omega)]
      rw [hsl]
    · have hlen' : 10 ≤ pyLen s := by omega
      have hslices : ∀ i j : Nat, j ≤ 10 → pySlice (pySlice s 0 10) i j = pySlice s i j := by
        intro i j hj
        unfold pySlice
        rw [List.drop_zero]
        congr 1
        rw [List.drop_take, List.take_take]
        congr 1
        omega
      have hlenslice : pyLen (pySlice s 0 10) = 10 := by
        unfold pyLen pySlice
        rw [List.drop_zero, List.length_take]
        unfold pyLen at hlen'
        omega
      have hne : ¬ s = "" := by
        intro hs
        rw [hs] at hlen'
        simp [pyLen] at hlen'
      have hne' : ¬ pySlice s 0 10 = "" := by
        intro hs
        rw [hs] at hlenslice
        simp [pyLen] at hlenslice
      simp only [parse_time]
      rw [if_neg (by push_neg; exact ⟨hne, by omega⟩),
          if_neg (by push_neg; exact ⟨hne', by omega⟩)]
      rw [hslices 0 2 (by omega), hslices 2 4 (by omega), hslices 4 6 (by omega),
          hslices 6 8 (by omega), hslices 8 10 (by omega)]
  · intro s dt h
    simp only [parse_time] at h
    split at h
    · exact absurd h (by simp)
    · split at h
      · rename_i yy mm dd hh mi hyy hmm hdd hhh hmi
        simp only [mkDatetime] at h
        split at h
        · rename_i hcond
          obtain ⟨h1, h2, h3, h4, h5, h6, h7, h8, h9, h10⟩ := hcond
          have hdt := (Option.some.inj h).symm
          subst hdt
          unfold validCivil
          dsimp only
          exact ⟨by omega, by omega, by omega, by omega, by omega, by omega,
            by omega, by omega, by omega, by omega⟩
        · exact absurd h (by simp)
      · exact absurd h (by simp)

end SBahn

namespace SBahn

/-! ## Index and merge-loop lemmas -/

theorem mem_aset_sub {κ α : Type} [DecidableEq κ] {d : AList κ α} {k : κ} {v : α}
    {p : κ × α} (hp : p ∈ aset d k v) : p ∈ d ∨ p = (k, v) := by
  induction d with
  | nil => simpa using hp
  | cons q t ih =>
    obtain ⟨k₀, v₀⟩ := q
    by_cases h₀ : k₀ = k
    · simp only [aset_cons, if_pos h₀, List.mem_cons] at hp
      rcases hp with h | hp
      · right; rw [h, h₀]
      · left; exact List.mem_cons_of_mem _ hp
    · simp only [aset_cons, if_neg h₀, List.mem_cons] at hp
      rcases hp with h | hp
      · left; rw [h]; exact List.mem_cons_self _ _
      · rcases ih hp with h | h
        · left; exact List.mem_cons_of_mem _ h
        · right; exact h

theorem aget_of_mem_nodup {κ α : Type} [DecidableEq κ] {d : AList κ α} {p : κ × α}
    (hp : p ∈ d) (hnd : (akeys d).Nodup) : aget d p.1 = some p.2 := by
  induction d with
  | nil => simp at hp
  | cons q t ih =>
    obtain ⟨k₀, v₀⟩ := q
    simp only [akeys, List.map_cons, List.nodup_cons] at hnd
    rcases List.mem_cons.1 hp with rfl | hp'
    · simp
    · have hne : k₀ ≠ p.1 := by
        intro hk
        exact hnd.1 (hk ▸ List.mem_map_of_mem Prod.fst hp')
      simp only [aget_cons, if_neg hne]
      exact ih hp' hnd.2

theorem aget_split {κ α : Type} [DecidableEq κ] {d : AList κ α} {k : κ} {v : α}
    (h : aget d k = some v) :
    ∃ pre post, d = pre ++ (k, v) :: post ∧ ∀ p ∈ pre, p.1 ≠ k := by
  induction d with
  | nil => simp at h
  | cons q t ih =>
    obtain ⟨k₀, v₀⟩ := q
    by_cases h₀ : k₀ = k
    · subst h₀
      simp at h
      subst h
      exact ⟨[], t, rfl, by simp⟩
    · simp only [aget_cons, if_neg h₀] at h
      obtain ⟨pre, post, rfl, hpre⟩ := ih h
      refine ⟨(k₀, v₀) :: pre, post, rfl, ?_⟩
      intro p hp
      rcases List.mem_cons.1 hp with rfl | hp'
      · exact h₀
      · exact hpre p hp'

theorem nodup_split_not_mem {κ α : Type} [DecidableEq κ] {pre post : AList κ α}
    {k : κ} {v : α} (hnd : (akeys (pre ++ (k, v) :: post)).Nodup) :
    ∀ p ∈ post, p.1 ≠ k := by
  have h : (List.map Prod.fst pre ++ k :: List.map Prod.fst post).Nodup := by
    simpa [akeys] using hnd
  have h2 := (List.nodup_append.mp h).2.1
  rw [List.nodup_cons] at h2
  intro p hp hk
  exact h2.1 (hk ▸ List.mem_map_of_mem Prod.fst hp)

theorem aget_foldIndex_not_mem {β : Type} (f : β → String) (l : List β)
    (init : AList String β) (k : String) (h : ∀ x ∈ l, f x ≠ k) :
    aget (foldIndex f init l) k = aget init k := by
  induction l generalizing init with
  | nil => rfl
  | cons a t ih =>
    show aget (foldIndex f (aset init (f a) a) t) k = aget init k
    rw [ih _ (fun x hx => h x (List.mem_cons_of_mem _ hx))]
    exact aget_aset_ne _ _ _ _ (h a (List.mem_cons_self _ _))

theorem aget_foldIndex_mem {β : Type} (f : β → String) (l : List β)
    (init : AList String β) (x : β) (hx : x ∈ l) (hnd : (l.map f).Nodup) :
    aget (foldIndex f init l) (f x) = some x := by
  induction l generalizing init with
  | nil => simp at hx
  | cons a t ih =>
    simp only [List.map_cons, List.nodup_cons] at hnd
    rcases List.mem_cons.1 hx with rfl | hx'
    · show aget (foldIndex f (aset init (f x) x) t) (f x) = some x
      rw [aget_foldIndex_not_mem f t _ (f x)
        (fun y hy hc => hnd.1 (hc ▸ List.mem_map_of_mem f hy))]
      exact aget_aset_self _ _ _
    · exact ih _ hx' hnd.2

theorem mem_foldIndex_sub {β : Type} (f : β → String) (l : List β)
    (init : AList String β) (p : String × β) (hp : p ∈ foldIndex f init l) :
    p ∈ init ∨ (p.2 ∈ l ∧ p.1 = f p.2) := by
  induction l generalizing init with
  | nil => exact Or.inl hp
  | cons a t ih =>
    rcases ih (aset init (f a) a) hp with h | h
    · rcases mem_aset_sub h with h' | h'
      · exact Or.inl h'
      · right
        rw [h']
        exact ⟨List.mem_cons_self _ _, rfl⟩
    · exact Or.inr ⟨List.mem_cons_of_mem _ h.1, h.2⟩

theorem akeys_nodup_foldIndex {β : Type} (f : β → String) (l : List β)
    (init : AList String β) (h : (akeys init).Nodup) :
    (akeys (foldIndex f init l)).Nodup := by
  induction l generalizing init with
  | nil => exact h
  | cons a t ih => exact ih _ (akeys_nodup_aset h _ _)

theorem foldIndex_of_coherent {β : Type} (f : β → String) (d : AList String β)
    (hnd : (akeys d).Nodup) (hcoh : ∀ p ∈ d, f p.2 = p.1) :
    foldIndex f [] (d.map Prod.snd) = d := by
  suffices h : ∀ init : AList String β, (∀ p ∈ d, p.1 ∉ akeys init) →
      foldIndex f init (d.map Prod.snd) = init ++ d by
    simpa using h [] (by simp [akeys])
  induction d with
  | nil => intro init _; simp [foldIndex]
  | cons q t ih =>
    intro init hdisj
    obtain ⟨k, v⟩ := q
    simp only [akeys, List.map_cons, List.nodup_cons] at hnd
    have hk : f v = k := hcoh (k, v) (List.mem_cons_self _ _)
    have hknotin : aget init k = none := by
      rw [aget_none_iff_not_mem_akeys]
      exact hdisj (k, v) (List.mem_cons_self _ _)
    show foldIndex f (aset init (f v) v) (t.map Prod.snd) = init ++ (k, v) :: t
    rw [hk, aset_append_of_not_mem _ _ _ hknotin]
    rw [ih hnd.2 (fun p hp => hcoh p (List.mem_cons_of_mem _ hp)) (init ++ [(k, v)]) ?hdisj2]
    · simp
    case hdisj2 =>
      intro p hp
      simp only [akeys, List.map_append, List.mem_append, List.map_cons]
      rintro (hin | hin)
      · exact hdisj p (List.mem_cons_of_mem _ hp) hin
      · simp only [List.map_nil, List.mem_singleton] at hin
        exact hnd.1 (hin ▸ List.mem_map_of_mem Prod.fst hp)

theorem aget_mergeFold_not_mem (c : AList String Event) (d : AList String Event)
    (k : String) (h : ∀ p ∈ c, p.1 ≠ k) :
    aget (c.foldl mergeStep d) k = aget d k := by
  induction c generalizing d with
  | nil => rfl
  | cons q t ih =>
    simp only [List.foldl_cons]
    rw [ih _ (fun p hp => h p (List.mem_cons_of_mem _ hp))]
    have hne := h q (List.mem_cons_self _ _)
    unfold mergeStep
    cases hg : aget d q.1 with
    | some b => exact aget_aset_ne _ _ _ _ hne
    | none => exact aget_aset_ne _ _ _ _ hne

theorem aget_mergeFold_matched (c : AList String Event) (d : AList String Event)
    (k : String) (ch b : Event) (hc : aget c k = some ch)
    (hnd : (akeys c).Nodup) (hd : aget d k = some b) :
    aget (c.foldl mergeStep d) k = some (ovl b ch) := by
  obtain ⟨pre, post, rfl, hpre⟩ := aget_split hc
  rw [List.foldl_append, List.foldl_cons]
  rw [aget_mergeFold_not_mem post _ k (nodup_split_not_mem hnd)]
  have h1 : aget (pre.foldl mergeStep d) k = some b := by
    rw [aget_mergeFold_not_mem pre d k hpre]; exact hd
  simp only [mergeStep, h1]
  exact aget_aset_self _ _ _

theorem aget_mergeFold_new (c : AList String Event) (d : AList String Event)
    (k : String) (ch : Event) (hc : aget c k = some ch)
    (hnd : (akeys c).Nodup) (hd : aget d k = none) :
    aget (c.foldl mergeStep d) k = some ch := by
  obtain ⟨pre, post, rfl, hpre⟩ := aget_split hc
  rw [List.foldl_append, List.foldl_cons]
  rw [aget_mergeFold_not_mem post _ k (nodup_split_not_mem hnd)]
  have h1 : aget (pre.foldl mergeStep d) k = none := by
    rw [aget_mergeFold_not_mem pre d k hpre]; exact hd
  simp only [mergeStep, h1]
  exact aget_aset_self _ _ _

theorem akeys_nodup_mergeFold (c : AList String Event) (d : AList String Event)
    (h : (akeys d).Nodup) : (akeys (c.foldl mergeStep d)).Nodup := by
  induction c generalizing d with
  | nil => exact h
  | cons q t ih =>
    simp only [List.foldl_cons]
    apply ih
    unfold mergeStep
    cases hg : aget d q.1 with
    | some b => exact akeys_nodup_aset h _ _
    | none => exact akeys_nodup_aset h _ _

theorem coherent_aset {d : AList String Event} {k : String} {v : Event}
    (hd : ∀ p ∈ d, (p.2).id = p.1) (hv : v.id = k) :
    ∀ p ∈ aset d k v, (p.2).id = p.1 := by
  intro p hp
  rcases mem_aset_sub hp with h | h
  · exact hd p h
  · rw [h]; exact hv

theorem coherent_mergeFold (c : AList String Event) (d : AList String Event)
    (hd : ∀ p ∈ d, (p.2).id = p.1) (hc : ∀ p ∈ c, (p.2).id = p.1) :
    ∀ p ∈ c.foldl mergeStep d, (p.2).id = p.1 := by
  induction c generalizing d with
  | nil => exact hd
  | cons q t ih =>
    simp only [List.foldl_cons]
    apply ih
    · unfold mergeStep
      cases hg : aget d q.1 with
      | some b =>
        apply coherent_aset hd
        show (ovl b q.2).id = q.1
        have : b.id = q.1 := hd (q.1, b) (mem_of_aget_eq_some hg)
        simpa [ovl] using this
      | none => exact coherent_aset hd (hc q (List.mem_cons_self _ _))
    · exact fun p hp => hc p (List.mem_cons_of_mem _ hp)

theorem coherent_indexById (init : AList String Event) (l : List Event)
    (h : ∀ p ∈ init, (p.2).id = p.1) :
    ∀ p ∈ indexById init l, (p.2).id = p.1 := by
  unfold indexById
  induction l generalizing init with
  | nil => exact h
  | cons a t ih =>
    show ∀ p ∈ foldIndex Event.id (aset init a.id a) t, (p.2).id = p.1
    exact ih _ (coherent_aset h rfl)

theorem foldl_fixed {β : Type} (g : AList String Event → β → AList String Event)
    (D : AList String Event) (l : List β) (h : ∀ x ∈ l, g D x = D) :
    l.foldl g D = D := by
  induction l with
  | nil => rfl
  | cons a t ih =>
    simp only [List.foldl_cons, h a (List.mem_cons_self _ _)]
    exact ih (fun x hx => h x (List.mem_cons_of_mem _ hx))

end SBahn

namespace SBahn

/-! ## Overlay idempotence -/

theorem aupdate_append_fresh {κ α : Type} [DecidableEq κ] (a b : AList κ α)
    (hdisj : ∀ p ∈ b, p.1 ∉ akeys a) (hnd : (akeys b).Nodup) :
    aupdate a b = a ++ b := by
  induction b generalizing a with
  | nil => simp [aupdate]
  | cons q t ih =>
    obtain ⟨k, v⟩ := q
    simp only [akeys, List.map_cons, List.nodup_cons] at hnd
    have hget : aget a k = none := by
      rw [aget_none_iff_not_mem_akeys]
      exact hdisj (k, v) (List.mem_cons_self _ _)
    show aupdate (aset a k v) t = a ++ (k, v) :: t
    rw [aset_append_of_not_mem _ _ _ hget]
    rw [ih (a ++ [(k, v)]) ?fresh (by exact hnd.2)]
    · simp
    case fresh =>
      intro p hp
      simp only [akeys, List.map_append, List.mem_append, List.map_cons, List.map_nil,
        List.mem_singleton]
      rintro (hin | hin)
      · exact hdisj p (List.mem_cons_of_mem _ hp) hin
      · exact hnd.1 (hin ▸ List.mem_map_of_mem Prod.fst hp)

theorem aupdate_nil {κ α : Type} [DecidableEq κ] (b : AList κ α)
    (hnd : (akeys b).Nodup) : aupdate [] b = b := by
  have := aupdate_append_fresh [] b (by simp [akeys]) hnd
  simpa using this

theorem aupdate_self {κ α : Type} [DecidableEq κ] (a : AList κ α)
    (hnd : (akeys a).Nodup) : aupdate a a = a := by
  have h := aupdate_idem [] a hnd
  rwa [aupdate_nil a hnd] at h

theorem ovl_ovl (b ch : Event) (h1 : (akeys ch.raw_tl).Nodup)
    (h2 : (akeys ch.raw_node_attrs).Nodup) : ovl (ovl b ch) ch = ovl b ch := by
  unfold ovl
  simp only [Event.mk.injEq]
  refine ⟨trivial, ?_, ?_, ?_, ?_, ?_, ?_, ?_, ?_, ?_⟩
  · by_cases h : ch.line_label = "" <;> simp [h]
  · cases hcp : ch.pt <;> cases hbp : b.pt <;> simp
  · cases hct : ch.ct <;> simp
  · cases hc : pyTruthy ch.pp <;> cases hb : pyTruthy b.pp <;> simp [hc, hb]
  · cases hc : pyTruthy ch.cp <;> simp [hc]
  · cases hc : pyTruthy ch.dest <;> simp [hc]
  · cases b.canceled <;> cases ch.canceled <;> rfl
  · exact aupdate_idem _ _ h1
  · exact aupdate_idem _ _ h2

theorem ovl_self (ch : Event) (h1 : (akeys ch.raw_tl).Nodup)
    (h2 : (akeys ch.raw_node_attrs).Nodup) : ovl ch ch = ch := by
  obtain ⟨cid, cll, cpt, cct, cpp, ccp, cdest, ccanc, ctl, cna⟩ := ch
  unfold ovl
  dsimp only at h1 h2 ⊢
  simp only [Event.mk.injEq]
  refine ⟨trivial, ?_, ?_, ?_, ?_, ?_, ?_, ?_, ?_, ?_⟩
  · by_cases h : cll = "" <;> simp [h]
  · cases hcp : cpt <;> simp
  · cases hct : cct <;> simp
  · cases hc : pyTruthy cpp <;> simp [hc]
  · cases hc : pyTruthy ccp <;> simp [hc]
  · cases hc : pyTruthy cdest <;> simp [hc]
  · cases ccanc <;> rfl
  · exact aupdate_self _ h1
  · exact aupdate_self _ h2

end SBahn

namespace SBahn

/-! ## Merge idempotence (C1), full outer join (C6), cancellation (C9) -/

/-- **C1**: merging the same changes dict a second time onto an already
merged result changes nothing, field for field (raw attribute dicts
included).  The hypotheses state that `changes` is a genuine Python dict
produced by `fetch_fchg`: its keys are pairwise distinct, each record is
stored under its own id, and the records' raw attribute dicts have
pairwise-distinct keys. -/
theorem merge_idempotent (plan : List Event) (changes : AList String Event)
    (hkeys : (akeys changes).Nodup)
    (hcoh : ∀ p ∈ changes, (p.2).id = p.1)
    (hraw : ∀ p ∈ changes, (akeys (p.2).raw_tl).Nodup ∧ (akeys (p.2).raw_node_attrs).Nodup) :
    merge_plan_with_changes (merge_plan_with_changes plan changes) changes
      = merge_plan_with_changes plan changes := by
  have hnodD1 : (akeys (mergeIndex plan changes)).Nodup := by
    apply akeys_nodup_mergeFold
    exact akeys_nodup_foldIndex _ _ _ (by simp [akeys])
  have hcohD1 : ∀ p ∈ mergeIndex plan changes, (p.2).id = p.1 := by
    apply coherent_mergeFold
    · exact coherent_indexById _ _ (by simp)
    · exact hcoh
  have hbridge : ∀ (d : AList String Event), (akeys d).Nodup →
      (∀ p ∈ d, (p.2).id = p.1) → indexById [] (d.map Prod.snd) = d := by
    intro d hnd hc
    show foldIndex Event.id [] (d.map Prod.snd) = d
    exact foldIndex_of_coherent Event.id d hnd hc
  unfold merge_plan_with_changes
  unfold mergeIndex at *
  rw [hbridge _ hnodD1 hcohD1]
  congr 1
  apply foldl_fixed
  intro p hp
  have hpk : aget changes p.1 = some p.2 := aget_of_mem_nodup hp hkeys
  have hrawp := hraw p hp
  cases hb : aget (indexById [] plan) p.1 with
  | some b =>
    have hv : aget (changes.foldl mergeStep (indexById [] plan)) p.1 = some (ovl b p.2) :=
      aget_mergeFold_matched changes _ p.1 p.2 b hpk hkeys hb
    simp only [mergeStep, hv, ovl_ovl b p.2 hrawp.1 hrawp.2]
    exact aset_aget_eq _ _ _ hv
  | none =>
    have hv : aget (changes.foldl mergeStep (indexById [] plan)) p.1 = some p.2 := by
      rw [aget_mergeFold_new changes _ p.1 p.2 hpk hkeys hb]
    simp only [mergeStep, hv, ovl_self p.2 hrawp.1 hrawp.2]
    exact aset_aget_eq _ _ _ hv

/-- **C1, witness**: idempotence at a concrete baseline and changes dict. -/
theorem merge_idempotent_witness :
    (akeys wChanges).Nodup ∧ (∀ p ∈ wChanges, (p.2).id = p.1)
      ∧ merge_plan_with_changes (merge_plan_with_changes [wEv42] wChanges) wChanges
          = merge_plan_with_changes [wEv42] wChanges :=
  ⟨by decide, by decide,
   merge_idempotent [wEv42] wChanges (by decide) (by decide) (by decide)⟩

/-- **C6**: merge is a full outer join on id: a change record whose key
matches no baseline id appears in the result as the change record itself,
and a baseline event whose id matches no change key appears unchanged. -/
theorem merge_full_outer_join (plan : List Event) (changes : AList String Event)
    (hkeys : (akeys changes).Nodup) :
    (∀ k ch, aget changes k = some ch → (∀ e ∈ plan, e.id ≠ k) →
        ch ∈ merge_plan_with_changes plan changes)
    ∧ ((plan.map Event.id).Nodup → ∀ e ∈ plan, aget changes e.id = none →
        e ∈ merge_plan_with_changes plan changes) := by
  constructor
  · intro k ch hch hplan
    have hb : aget (indexById [] plan) k = none := by
      unfold indexById
      rw [aget_foldIndex_not_mem Event.id plan [] k hplan]
      rfl
    have hv : aget (mergeIndex plan changes) k = some ch :=
      aget_mergeFold_new changes _ k ch hch hkeys hb
    exact List.mem_map_of_mem Prod.snd (mem_of_aget_eq_some hv)
  · intro hnd e he hch
    have hb : aget (indexById [] plan) e.id = some e :=
      aget_foldIndex_mem Event.id plan [] e he hnd
    have hmiss : ∀ p ∈ changes, p.1 ≠ e.id := by
      intro p hp hk
      have hs := aget_isSome_of_mem hp
      rw [hk, hch] at hs
      simp at hs
    have hv : aget (mergeIndex plan changes) e.id = some e := by
      unfold mergeIndex
      rw [aget_mergeFold_not_mem changes _ e.id hmiss]
      exact hb
    exact List.mem_map_of_mem Prod.snd (mem_of_aget_eq_some hv)

/-- **C6, witness**: an ad-hoc change (`id=99`) with no baseline
counterpart appears in the result; a baseline event (`id=42`) with no
change appears unchanged. -/
theorem merge_full_outer_join_witness :
    wCh99 ∈ merge_plan_with_changes [wEv42] [("99", wCh99)]
      ∧ wEv42 ∈ merge_plan_with_changes [wEv42] [("99", wCh99)] :=
  ⟨(merge_full_outer_join [wEv42] [("99", wCh99)] (by decide)).1 "99" wCh99
      (by decide) (by decide),
   (merge_full_outer_join [wEv42] [("99", wCh99)] (by decide)).2 (by decide) wEv42
      (by decide) (by decide)⟩

/-- **C9**: for a baseline event with a matching change record, the merged
event's cancellation flag is exactly the logical OR of the two records'
flags — so one cancelled contributor keeps the merged event cancelled. -/
theorem merge_cancel_or (plan : List Event) (changes : AList String Event)
    (hplan : (plan.map Event.id).Nodup) (hkeys : (akeys changes).Nodup)
    (e ch : Event) (he : e ∈ plan) (hch : aget changes e.id = some ch) :
    ∃ m ∈ merge_plan_with_changes plan changes,
      m.id = e.id ∧ m.canceled = (e.canceled || ch.canceled) := by
  have hb : aget (indexById [] plan) e.id = some e :=
    aget_foldIndex_mem Event.id plan [] e he hplan
  have hv : aget (mergeIndex plan changes) e.id = some (ovl e ch) :=
    aget_mergeFold_matched changes _ e.id ch e hch hkeys hb
  refine ⟨ovl e ch, List.mem_map_of_mem Prod.snd (mem_of_aget_eq_some hv), rfl, rfl⟩

/-- **C9, witness**: a cancelled change record cancels the merged event. -/
theorem merge_cancel_or_witness :
    ∃ m ∈ merge_plan_with_changes [wEv42] [("42", wCh99)],
      m.id = wEv42.id ∧ m.canceled = (wEv42.canceled || wCh99.canceled) :=
  merge_cancel_or [wEv42] [("42", wCh99)] (by decide) (by decide) wEv42 wCh99
    (by decide) (by decide)

end SBahn

namespace SBahn

/-! ## Heap-merge lemmas and in-place mutation (C10) -/

theorem getD_set_self_list {α : Type} (l : List α) (i : Nat) (v d : α)
    (h : i < l.length) : (l.set i v).getD i d = v := by
  induction l generalizing i with
  | nil => simp at h
  | cons x t ih =>
    cases i with
    | zero => rfl
    | succ j =>
      simp only [List.set_cons_succ, List.getD_cons_succ]
      exact ih j (by simpa using h)

theorem getD_set_ne_list {α : Type} (l : List α) (i j : Nat) (v d : α)
    (h : i ≠ j) : (l.set i v).getD j d = l.getD j d := by
  induction l generalizing i j with
  | nil => rfl
  | cons x t ih =>
    cases i with
    | zero =>
      cases j with
      | zero => exact absurd rfl h
      | succ j2 => rfl
    | succ i2 =>
      cases j with
      | zero => rfl
      | succ j2 =>
        simp only [List.set_cons_succ, List.getD_cons_succ]
        exact ih i2 j2 (by omega)

theorem getD_append_left_list {α : Type} (l l2 : List α) (i : Nat) (d : α)
    (h : i < l.length) : (l ++ l2).getD i d = l.getD i d := by
  induction l generalizing i with
  | nil => simp at h
  | cons x t ih =>
    cases i with
    | zero => rfl
    | succ j =>
      simp only [List.cons_append, List.getD_cons_succ]
      exact ih j (by simpa using h)

theorem heapFold_keep (c : AList String Event) (st : List Event) (d : AList String Nat)
    (a : Nat) (key : String)
    (hget : aget d key = some a) (ha : a < st.length)
    (huni : ∀ p ∈ d, p.2 = a → p.1 = key)
    (hmiss : ∀ p ∈ c, p.1 ≠ key) :
    (c.foldl (fun acc p => mergeHeapStep acc.1 acc.2 p) (st, d)).1.getD a defaultEvent
        = st.getD a defaultEvent
      ∧ aget (c.foldl (fun acc p => mergeHeapStep acc.1 acc.2 p) (st, d)).2 key = some a
      ∧ (∀ p ∈ (c.foldl (fun acc p => mergeHeapStep acc.1 acc.2 p) (st, d)).2,
          p.2 = a → p.1 = key)
      ∧ a < (c.foldl (fun acc p => mergeHeapStep acc.1 acc.2 p) (st, d)).1.length := by
  induction c generalizing st d with
  | nil => exact ⟨rfl, hget, huni, ha⟩
  | cons q t ih =>
    simp only [List.foldl_cons]
    have hqk : q.1 ≠ key := hmiss q (List.mem_cons_self _ _)
    have hmiss' : ∀ p ∈ t, p.1 ≠ key := fun p hp => hmiss p (List.mem_cons_of_mem _ hp)
    cases hg : aget d q.1 with
    | some a2 =>
      have hstep : mergeHeapStep st d q = (st.set a2 (ovl (st.getD a2 defaultEvent) q.2), d) := by
        unfold mergeHeapStep
        rw [hg]
      rw [hstep]
      have ha2 : a2 ≠ a := fun hcontr => hqk (huni (q.1, a2) (mem_of_aget_eq_some hg) hcontr)
      have hlen : a < (st.set a2 (ovl (st.getD a2 defaultEvent) q.2)).length := by
        rw [List.length_set]; exact ha
      obtain ⟨g1, g2, g3, g4⟩ :=
        ih (st.set a2 (ovl (st.getD a2 defaultEvent) q.2)) d hget hlen huni hmiss'
      refine ⟨?_, g2, g3, g4⟩
      rw [g1, getD_set_ne_list _ _ _ _ _ ha2]
    | none =>
      have hstep : mergeHeapStep st d q = (st ++ [q.2], aset d q.1 st.length) := by
        unfold mergeHeapStep
        rw [hg]
      rw [hstep]
      have hget' : aget (aset d q.1 st.length) key = some a := by
        rw [aget_aset_ne _ _ _ _ hqk]; exact hget
      have huni' : ∀ p ∈ aset d q.1 st.length, p.2 = a → p.1 = key := by
        intro p hp hpa
        rcases mem_aset_sub hp with h | h
        · exact huni p h hpa
        · exfalso
          rw [h] at hpa
          simp only at hpa
          omega
      have hlen : a < (st ++ [q.2]).length := by
        rw [List.length_append]
        omega
      obtain ⟨g1, g2, g3, g4⟩ := ih (st ++ [q.2]) (aset d q.1 st.length) hget' hlen huni' hmiss'
      refine ⟨?_, g2, g3, g4⟩
      rw [g1, getD_append_left_list _ _ _ _ ha]

/-- **C10**: `merge_plan_with_changes` is not pure over its baseline: in
the heap model (baseline events live in a store, the argument is their
addresses), a baseline event whose id matches a change record is
overwritten *at its original address* with the overlaid fields, and the
returned event list contains that same address — the result aliases the
caller's objects, so the caller's baseline list observes the merged
values. -/
theorem merge_in_place_aliasing (store : List Event) (planAddrs : List Nat)
    (changes : AList String Event)
    (hv : ∀ a ∈ planAddrs, a < store.length)
    (hnd : (planAddrs.map (fun a => (store.getD a defaultEvent).id)).Nodup)
    (hkeys : (akeys changes).Nodup) :
    (∀ a ∈ planAddrs, ∀ ch, aget changes ((store.getD a defaultEvent).id) = some ch →
        (mergeHeap store planAddrs changes).1.getD a defaultEvent
          = ovl (store.getD a defaultEvent) ch)
    ∧ (∀ a ∈ planAddrs, a ∈ (mergeHeap store planAddrs changes).2) := by
  have hMH : mergeHeap store planAddrs changes
      = ((changes.foldl (fun acc p => mergeHeapStep acc.1 acc.2 p)
            (store, foldIndex (fun a => (store.getD a defaultEvent).id) [] planAddrs)).1,
         (changes.foldl (fun acc p => mergeHeapStep acc.1 acc.2 p)
            (store, foldIndex (fun a => (store.getD a defaultEvent).id) [] planAddrs)).2.map
           Prod.snd) := rfl
  have main : ∀ a ∈ planAddrs,
      (∀ ch, aget changes ((store.getD a defaultEvent).id) = some ch →
        (changes.foldl (fun acc p => mergeHeapStep acc.1 acc.2 p)
            (store, foldIndex (fun a => (store.getD a defaultEvent).id) [] planAddrs)).1.getD
            a defaultEvent
          = ovl (store.getD a defaultEvent) ch)
      ∧ aget (changes.foldl (fun acc p => mergeHeapStep acc.1 acc.2 p)
            (store, foldIndex (fun a => (store.getD a defaultEvent).id) [] planAddrs)).2
          ((store.getD a defaultEvent).id) = some a := by
    intro a ha
    have hget : aget (foldIndex (fun a => (store.getD a defaultEvent).id) [] planAddrs)
        ((store.getD a defaultEvent).id) = some a :=
      aget_foldIndex_mem (fun a => (store.getD a defaultEvent).id) planAddrs [] a ha hnd
    have huni : ∀ p ∈ foldIndex (fun a => (store.getD a defaultEvent).id) [] planAddrs,
        p.2 = a → p.1 = (store.getD a defaultEvent).id := by
      intro p hp hpa
      rcases mem_foldIndex_sub _ _ _ _ hp with h | h
      · simp at h
      · rw [h.2, hpa]
    cases hch : aget changes ((store.getD a defaultEvent).id) with
    | none =>
      have hmiss : ∀ p ∈ changes, p.1 ≠ (store.getD a defaultEvent).id := by
        intro p hp hk
        have hs := aget_isSome_of_mem hp
        rw [hk, hch] at hs
        simp at hs
      obtain ⟨g1, g2, g3, g4⟩ := heapFold_keep changes store _ a _ hget (hv a ha) huni hmiss
      exact ⟨fun ch hc => absurd hc (by simp), g2⟩
    | some ch0 =>
      obtain ⟨pre, post, hsplit, hpre⟩ := aget_split hch
      have hpost : ∀ p ∈ post, p.1 ≠ (store.getD a defaultEvent).id := by
        rw [hsplit] at hkeys
        exact nodup_split_not_mem hkeys
      rw [hsplit, List.foldl_append, List.foldl_cons]
      obtain ⟨g1, g2, g3, g4⟩ := heapFold_keep pre store _ a _ hget (hv a ha) huni hpre
      set S1 := pre.foldl (fun acc p => mergeHeapStep acc.1 acc.2 p)
        (store, foldIndex (fun a => (store.getD a defaultEvent).id) [] planAddrs) with hS1
      have hstep : mergeHeapStep S1.1 S1.2 ((store.getD a defaultEvent).id, ch0)
          = (S1.1.set a (ovl (S1.1.getD a defaultEvent) ch0), S1.2) := by
        unfold mergeHeapStep
        rw [g2]
      rw [hstep]
      have hlen2 : a < (S1.1.set a (ovl (S1.1.getD a defaultEvent) ch0)).length := by
        rw [List.length_set]; exact g4
      obtain ⟨g1', g2', g3', g4'⟩ :=
        heapFold_keep post (S1.1.set a (ovl (S1.1.getD a defaultEvent) ch0)) S1.2 a _ g2
          hlen2 g3 hpost
      constructor
      · intro ch hc
        obtain rfl := Option.some.inj hc
        rw [g1', getD_set_self_list _ _ _ _ g4, g1]
      · exact g2'
  constructor
  · intro a ha ch hch
    rw [hMH]
    exact (main a ha).1 ch hch
  · intro a ha
    rw [hMH]
    exact List.mem_map_of_mem Prod.snd (mem_of_aget_eq_some (main a ha).2)

/-- **C10, witness**: a store with one baseline event at address 0 and a
matching change: the store cell at address 0 is overwritten with the
overlay and address 0 is in the returned list. -/
theorem merge_in_place_aliasing_witness :
    (mergeHeap [wEv42] [0] wChanges).1.getD 0 defaultEvent
        = ovl (([wEv42] : List Event).getD 0 defaultEvent) wCh42
      ∧ 0 ∈ (mergeHeap [wEv42] [0] wChanges).2 :=
  ⟨(merge_in_place_aliasing [wEv42] [0] wChanges (by decide) (by decide) (by decide)).1
      0 (by decide) wCh42 (by decide),
   (merge_in_place_aliasing [wEv42] [0] wChanges (by decide) (by decide) (by decide)).2
      0 (by decide)⟩

end SBahn

namespace SBahn

/-! ## Changes-feed failure and the live flag (C2) -/

theorem requestsGetFrom_none (att : Nat → HttpAttempt) (i n : Nat)
    (h : ∀ j, j < n → failedAttempt (att (i + j)) = true) :
    requestsGetFrom att i n = none := by
  induction n generalizing i with
  | zero => rfl
  | succ m ih =>
    unfold requestsGetFrom
    have h0 := h 0 (by omega)
    rw [Nat.add_zero] at h0
    cases hg : att i with
    | ok p =>
      obtain ⟨status, text⟩ := p
      rw [hg] at h0
      have hne : status ≠ 200 := by
        simpa [failedAttempt] using h0
      dsimp only
      rw [if_neg hne]
      exact ih (i + 1) (fun j hj => by
        have := h (j + 1) (by omega)
        rwa [show i + (j + 1) = i + 1 + j by omega] at this)
    | error e =>
      exact ih (i + 1) (fun j hj => by
        have := h (j + 1) (by omega)
        rwa [show i + (j + 1) = i + 1 + j by omega] at this)

/-- **C2 (code bug)**: when every HTTP attempt of the changes fetch fails
(transport exception or non-200 status) while the baseline fetches behave
arbitrarily, `get_departures_window` proceeds with baseline-only data —
it never aborts — but it equals the baseline-only pipeline with the live
flag **true**: `fetch_fchg` swallows all transport failures and returns an
empty dict without raising, so the `except` branch that would set
`live_ok = False` is unreachable, contradicting the claim, the spec and
the function's own docstring. -/
theorem changes_failure_keeps_live_flag (eva : Nat) (nowLocal : DateTime) (maxItems : Nat)
    (selectedLine : Option String) (cache : PlanCache) (nowUnix : Nat)
    (planAtt : String → String → Nat → HttpAttempt) (parseXml : XmlOracle)
    (fchgAtt : Nat → HttpAttempt)
    (hfail : ∀ i, i < HTTP_RETRIES + 1 → failedAttempt (fchgAtt i) = true) :
    get_departures_window eva nowLocal maxItems selectedLine cache nowUnix planAtt
        parseXml fchgAtt
      = windowCore eva nowLocal maxItems selectedLine cache nowUnix planAtt parseXml [] true
    ∧ (get_departures_window eva nowLocal maxItems selectedLine cache nowUnix planAtt
        parseXml fchgAtt).1.2 = true := by
  have hreq : requests_get fchgAtt = none := by
    unfold requests_get
    exact requestsGetFrom_none fchgAtt 0 (HTTP_RETRIES + 1) (by simpa using hfail)
  have hfch : fetch_fchg fchgAtt parseXml = .ok [] := by
    unfold fetch_fchg
    rw [hreq]
  have heq : get_departures_window eva nowLocal maxItems selectedLine cache nowUnix planAtt
      parseXml fchgAtt
      = windowCore eva nowLocal maxItems selectedLine cache nowUnix planAtt parseXml [] true := by
    unfold get_departures_window
    rw [hfch]
  refine ⟨heq, ?_⟩
  rw [heq]
  rfl

/-- **C2, witness**: concrete run — baseline fetch succeeds with one
departure in the window, every changes-fetch attempt raises; the result is
the baseline-only pipeline with the live flag still `true`. -/
theorem changes_failure_keeps_live_flag_witness :
    (∀ i, i < HTTP_RETRIES + 1 → failedAttempt (wFchgFail i) = true)
      ∧ get_departures_window 1 wNow 15 none [] 1000 wPlanAtt wParseXml wFchgFail
          = windowCore 1 wNow 15 none [] 1000 wPlanAtt wParseXml [] true
      ∧ (get_departures_window 1 wNow 15 none [] 1000 wPlanAtt wParseXml wFchgFail).1
          = ([wEv42], true) :=
  ⟨by decide,
   (changes_failure_keeps_live_flag 1 wNow 15 none [] 1000 wPlanAtt wParseXml wFchgFail
      (by decide)).1,
   by decide⟩

end SBahn

namespace SBahn

/-! ## Resolver auto-select (C8) -/

/-- **C8**: `find_station_candidates` returns an exact station (with an
empty candidate list) iff the top-ranked candidate scores at least 100 and
its normalized name equals the normalized canonical (alias-applied)
query; otherwise it returns no exact match together with the first
`limit` ranked candidates (an empty list when nothing usable was found). -/
theorem resolver_auto_select (search : String → List Station) (userInput : String)
    (limit : Nat) :
    (((find_station_candidates search userInput limit).1.isSome = true
        ∧ (find_station_candidates search userInput limit).2 = [])
      ↔ (∃ top rest,
          rank_stations (collectResults search (queriesFor (apply_aliases userInput) userInput))
              (norm (apply_aliases userInput)) = top :: rest
            ∧ top.2 ≥ 100 ∧ norm top.1.name = norm (apply_aliases userInput)))
    ∧ ((find_station_candidates search userInput limit).1 = none →
        (find_station_candidates search userInput limit).2
          = ((rank_stations (collectResults search (queriesFor (apply_aliases userInput) userInput))
                (norm (apply_aliases userInput))).take limit).map Prod.fst) := by
  unfold find_station_candidates
  cases hr : rank_stations (collectResults search (queriesFor (apply_aliases userInput) userInput))
      (norm (apply_aliases userInput)) with
  | nil =>
    simp only [hr]
    simp
  | cons top rest =>
    simp only [hr]
    by_cases hc : top.2 ≥ 100 ∧ norm top.1.name = norm (apply_aliases userInput)
    · rw [if_pos hc]
      constructor
      · constructor
        · intro _
          exact ⟨top, rest, rfl, hc.1, hc.2⟩
        · intro _
          exact ⟨rfl, rfl⟩
      · intro hnone
        exact absurd hnone (by simp)
    · rw [if_neg hc]
      constructor
      · constructor
        · intro hcontr
          exact absurd hcontr.1 (by simp)
        · rintro ⟨top2, rest2, heq, h100, hnorm⟩
          obtain rfl := (List.cons.inj heq).1
          exact absurd ⟨h100, hnorm⟩ hc
      · intro _
        rfl

/-- **C8, witness**: a catalog response whose best candidate scores below
100 yields no exact match and the top-`limit` ranked candidates. -/
theorem resolver_auto_select_witness :
    (find_station_candidates wSearch "Berg" 3).1 = none
      ∧ (find_station_candidates wSearch "Berg" 3).2
          = ((rank_stations (collectResults wSearch (queriesFor (apply_aliases "Berg") "Berg"))
                (norm (apply_aliases "Berg"))).take 3).map Prod.fst :=
  ⟨by decide, (resolver_auto_select wSearch "Berg" 3).2 (by decide)⟩

end SBahn

namespace SBahn

/-- **C7, witness**: concrete instances of the totality theorem — a short
code decodes to `none`, an 11-character code decodes like its first 10
characters, and a well-formed code decodes to an in-range civil datetime. -/
theorem parse_time_total_witness :
    pyLen "25011" < 10 ∧ parse_time (some "25011") = none
      ∧ parse_time (some "2501151236x") = parse_time (some (pySlice "2501151236x" 0 10))
      ∧ (parse_time (some "2501151236") = some ⟨2025, 1, 15, 12, 36, 0, 0⟩
          ∧ validCivil ⟨2025, 1, 15, 12, 36, 0, 0⟩) :=
  ⟨by decide, parse_time_total.2.1 "25011" (by decide),
   parse_time_total.2.2.1 "2501151236x",
   by decide, parse_time_total.2.2.2 "2501151236" ⟨2025, 1, 15, 12, 36, 0, 0⟩ (by decide)⟩

end SBahn
